import Mathlib

/-!
Verification development for the webtreemap CLI core
(`src/cli.ts`, `src/processors/coverage.ts`).

JavaScript numbers are modelled as `JSNum`: a finite rational, an
infinity, or NaN.  Exact rationals stand in for IEEE doubles; none of
the verified properties depends on rounding.  Regular expressions from
the source are modelled as hand-rolled functions over `List Char`.
-/

/-- A JavaScript `number` as it occurs in this program: NaN, an
infinity, or a finite value (modelled as an exact rational). -/
inductive JSNum where
  | nan : JSNum
  | posInf : JSNum
  | negInf : JSNum
  | fin : ℚ → JSNum
deriving DecidableEq, Repr

/-- The JS comparison `x >= 0`: false for NaN and `-Infinity`.  A
finite rational is nonnegative exactly when its (normalized) numerator
is. -/
def JSNum.ge0 : JSNum → Bool
  | .nan => false
  | .posInf => true
  | .negInf => false
  | .fin q => decide (0 ≤ q.num)

/-- JS regex `\s` (the WhiteSpace and LineTerminator code points). -/
def jsIsSpace (c : Char) : Bool :=
  let n := c.toNat
  (9 ≤ n && n ≤ 13) || n = 32 || n = 160 || n = 5760 ||
    (8192 ≤ n && n ≤ 8202) || n = 8232 || n = 8233 || n = 8239 ||
    n = 8287 || n = 12288 || n = 65279

/-- Numeric value of a decimal digit; `none` for any other character. -/
def decVal? (c : Char) : Option ℕ :=
  if '0' ≤ c ∧ c ≤ '9' then some (c.toNat - 48) else none

/-- Numeric value of a hexadecimal digit. -/
def hexVal? (c : Char) : Option ℕ :=
  if '0' ≤ c ∧ c ≤ '9' then some (c.toNat - 48)
  else if 'a' ≤ c ∧ c ≤ 'f' then some (c.toNat - 87)
  else if 'A' ≤ c ∧ c ≤ 'F' then some (c.toNat - 55)
  else none

/-- Numeric value of an octal digit. -/
def octVal? (c : Char) : Option ℕ :=
  if '0' ≤ c ∧ c ≤ '7' then some (c.toNat - 48) else none

/-- Numeric value of a binary digit. -/
def binVal? (c : Char) : Option ℕ :=
  if c = '0' then some 0 else if c = '1' then some 1 else none

/-- Value of a digit string in the given base. -/
def digitsVal (base : ℕ) (ds : List ℕ) : ℕ :=
  ds.foldl (fun a d => a * base + d) 0

/-- The rational `(ival + fval / 10 ^ k) * 10 ^ e` of a decimal
literal with integer part `ival`, fraction digits worth `fval` over
`10 ^ k`, and exponent `e`, presented as an unreduced
numerator/denominator pair of naturals (all arithmetic stays in ℕ so
the value is computable by kernel reduction). -/
def decValue (ival fval k : ℕ) (e : ℤ) : ℕ × ℕ :=
  ((ival * 10 ^ k + fval) * 10 ^ e.toNat, 10 ^ k * 10 ^ (-e).toNat)

/-- The optional exponent part of a JS decimal literal
(`[eE][+-]?digits`); `none` when the remainder is not a valid
exponent part, `some 0` when the remainder is empty. -/
def jsExpPart (cs : List Char) : Option ℤ :=
  match cs with
  | [] => some 0
  | c :: rest =>
    if c = 'e' ∨ c = 'E' then
      match rest with
      | '+' :: ds => if ds ≠ [] then (ds.mapM decVal?).map (fun l => (digitsVal 10 l : ℤ)) else none
      | '-' :: ds => if ds ≠ [] then (ds.mapM decVal?).map (fun l => -(digitsVal 10 l : ℤ)) else none
      | ds => if ds ≠ [] then (ds.mapM decVal?).map (fun l => (digitsVal 10 l : ℤ)) else none
    else none

/-- An unsigned JS decimal literal: `digits [. digits] [exp]` or
`. digits [exp]`, valued as a numerator/denominator pair; `none` when
the characters are not such a literal. -/
def jsDecimal (cs : List Char) : Option (ℕ × ℕ) :=
  let ip := cs.takeWhile Char.isDigit
  let r1 := cs.drop ip.length
  let ival := digitsVal 10 (ip.map (fun c => c.toNat - 48))
  match r1 with
  | '.' :: r2 =>
    let fp := r2.takeWhile Char.isDigit
    let r3 := r2.drop fp.length
    if ip.isEmpty ∧ fp.isEmpty then none
    else
      (jsExpPart r3).map (fun e =>
        decValue ival (digitsVal 10 (fp.map (fun c => c.toNat - 48))) fp.length e)
  | _ =>
    if ip.isEmpty then none
    else (jsExpPart r1).map (fun e => decValue ival 0 0 e)

/-- An unsigned radix literal body (after `0x`, `0o` or `0b`):
all remaining characters must be digits of the base, at least one. -/
def radixNum (base : ℕ) (dig : Char → Option ℕ) (cs : List Char) : JSNum :=
  match cs.mapM dig with
  | some ds => if ds.isEmpty then .nan else .fin (mkRat (digitsVal base ds) 1)
  | none => .nan

/-- A signed decimal literal or the word `Infinity`. -/
def signedDec (cs : List Char) (neg : Bool) : JSNum :=
  if cs = "Infinity".data then (if neg then .negInf else .posInf)
  else
    match jsDecimal cs with
    | some (n, d) => .fin (mkRat (if neg then -(n : ℤ) else (n : ℤ)) d)
    | none => .nan

/-- The JS `Number(tok)` coercion for a non-empty token containing no
whitespace (the only shape `parseLine` feeds it): decimal literals with
optional sign, `Infinity`, and unsigned hex/octal/binary literals.
Unparseable tokens give `.nan`. -/
def jsNumber (cs : List Char) : JSNum :=
  match cs with
  | '0' :: 'x' :: rest => radixNum 16 hexVal? rest
  | '0' :: 'X' :: rest => radixNum 16 hexVal? rest
  | '0' :: 'o' :: rest => radixNum 8 octVal? rest
  | '0' :: 'O' :: rest => radixNum 8 octVal? rest
  | '0' :: 'b' :: rest => radixNum 2 binVal? rest
  | '0' :: 'B' :: rest => radixNum 2 binVal? rest
  | '+' :: rest => signedDec rest false
  | '-' :: rest => signedDec rest true
  | _ => signedDec cs false

/-- Leftmost match of the unanchored regex `(\S+)\s+(.*)` from
`parseLine` (src/cli.ts line 36): skip characters where no match can
start, take the first maximal run of non-whitespace that is followed by
at least one whitespace character, then capture the remainder after the
whitespace run (stopping at a line terminator, which `.` does not
match). -/
def splitTokenRest (cs : List Char) : Option (List Char × List Char) :=
  match cs with
  | [] => none
  | c :: rest =>
    if jsIsSpace c then splitTokenRest rest
    else
      let tok := c :: rest.takeWhile (fun d => !jsIsSpace d)
      let after := rest.dropWhile (fun d => !jsIsSpace d)
      if after.isEmpty then none
      else
        some (tok, (after.dropWhile jsIsSpace).takeWhile
          (fun d => d ≠ '\n' ∧ d ≠ '\r' ∧ d ≠ '\u2028' ∧ d ≠ '\u2029'))

/-- Models `parseLine` (src/cli.ts lines 29-48).  A blank line gives
`("", 0)`; a line splitting as `(\S+)\s+(.*)` gives `(rest, Number(tok))`
or throws when the token is NaN; any other line is a bare path with
size 1.  The thrown `Error` is modelled as `Except.error` carrying the
message text. -/
def parseLine (line : String) : Except String (String × JSNum) :=
  if line.data.all jsIsSpace then .ok ("", .fin 0)
  else
    match splitTokenRest line.data with
    | some (tok, rest) =>
      match jsNumber tok with
      | .nan => .error ("Unable to parse NaN as a number in line: \"" ++ line ++ "\"")
      | n => .ok (String.mk rest, n)
    | none => .ok (line, .fin 1)

/-- One element of the `[string, number, number?]` result tuples of the
CLI processors.  `value` distinguishes the three observable states of a
JS tuple's third slot: `none` = the slot was never assigned (the tuple
has length 2), `some none` = explicitly assigned `undefined` (the
sentinel written at src/cli.ts line 123), `some (some v)` = a number. -/
structure Row where
  path : String
  size : JSNum
  value : Option (Option JSNum)
deriving DecidableEq, Repr

/-- Does `pre` start the list `cs`? -/
def startsWithSeg (pre cs : List Char) : Bool :=
  match pre, cs with
  | [], _ => true
  | _ :: _, [] => false
  | p :: ps, c :: rest => p = c && startsWithSeg ps rest

/-- Does `pre` occur as a contiguous segment of `cs`? -/
def containsSeg (pre cs : List Char) : Bool :=
  match cs with
  | [] => startsWithSeg pre []
  | _ :: rest => startsWithSeg pre cs || containsSeg pre rest

/-- JS regex line terminators, the code points `.` does not match. -/
def isLineTerm (c : Char) : Bool :=
  c = '\n' || c = '\r' || c = '\u2028' || c = '\u2029'

/-- Scan for an occurrence of `[[` whose `(.*)]]` part also matches:
since `.` cannot cross a line terminator, the closing `]]` must occur
within the run of non-terminator characters that follows this `[[`.
An occurrence with no such `]]` fails only locally; the regex engine
backtracks and tries the later start positions. -/
def delimScan : List Char → Bool
  | [] => false
  | c :: rest =>
    (startsWithSeg ['[', '['] (c :: rest) &&
      containsSeg [']', ']'] (rest.tail.takeWhile (fun d => !isLineTerm d))) ||
    delimScan rest

/-- The delimiter test `line.match(/\[\[(.*)\]\])/` of
src/cli.ts line 100: the line contains `[[` followed by `]]` with no
line terminator between them. -/
def isDelimLine (line : String) : Bool :=
  delimScan line.data

/-- JS `text.split('\n')`: split a character list at every newline,
keeping empty pieces. -/
def splitLinesCh : List Char → List (List Char)
  | [] => [[]]
  | c :: cs =>
    if c = '\n' then [] :: splitLinesCh cs
    else
      match splitLinesCh cs with
      | [] => [[c]]
      | l :: ls => (c :: l) :: ls

/-- Lookup in the model of the `Map` `ptrs`: entries are prepended on
`Map.set`, so the first hit is the most recently stored binding. -/
def assocGet : List (String × ℕ) → String → Option ℕ
  | [], _ => none
  | (k, v) :: l, p => if k = p then some v else assocGet l p

/-- Replace the element at index `i` (out-of-range indices leave the
list unchanged). -/
def listModify : List Row → ℕ → (Row → Row) → List Row
  | [], _, _ => []
  | r :: rs, 0, f => f r :: rs
  | r :: rs, n + 1, f => r :: listModify rs n f

/-- The loop state of `processSizeValuePathTuple`: the result list so
far, the path-indexed `Map` (modelled as path ↦ index of the tuple it
references inside `results`), and the `foundValueDelimeter` flag. -/
structure PState where
  results : List Row
  ptrs : List (String × ℕ)
  found : Bool
deriving DecidableEq, Repr

/-- One iteration of the line loop of `processSizeValuePathTuple`
(src/cli.ts lines 95-117).  A delimiter line sets the flag; before the
delimiter every parsed line is appended and indexed; after it a line
whose path is indexed has the referenced tuple's value slot overwritten
with the new line's size, and an unindexed path is appended with size
zero. -/
def pspStep (st : PState) (line : String) : Except String PState :=
  if isDelimLine line then .ok ⟨st.results, st.ptrs, true⟩
  else
    match parseLine line with
    | .error e => .error e
    | .ok (p, s) =>
      if st.found = false then
        .ok ⟨st.results ++ [⟨p, s, none⟩], (p, st.results.length) :: st.ptrs, st.found⟩
      else
        match assocGet st.ptrs p with
        | some i =>
          .ok ⟨listModify st.results i (fun r => ⟨r.path, r.size, some (some s)⟩), st.ptrs, st.found⟩
        | none => .ok ⟨st.results ++ [⟨p, .fin 0, some (some s)⟩], st.ptrs, st.found⟩

/-- The post-scan fixup of `processSizeValuePathTuple` (src/cli.ts
lines 118-124): when a delimiter was seen and the first tuple still has
length 2, its value slot is set to an explicit `undefined`. -/
def pspFinalize (found : Bool) : List Row → List Row
  | [] => []
  | r :: rs =>
    if found = true ∧ r.value = none then ⟨r.path, r.size, some none⟩ :: rs else r :: rs

/-- Models `processSizeValuePathTuple` (src/cli.ts lines 84-126) on the
collected input text (`collectInputFromArgs` is external I/O and is
abstracted as the `text` argument). -/
def processSizeValuePathTuple (text : String) : Except String (List Row) :=
  match (splitLinesCh text.data).foldlM (fun st l => pspStep st (String.mk l)) ⟨[], [], false⟩ with
  | .error e => .error e
  | .ok st => .ok (pspFinalize st.found st.results)

/-- Decidable equality for `Except`, needed to evaluate the model on
concrete inputs. -/
instance {e a : Type} [DecidableEq e] [DecidableEq a] : DecidableEq (Except e a) := fun x y =>
  match x, y with
  | .ok u, .ok v => decidable_of_iff (u = v) (by simp)
  | .error u, .error v => decidable_of_iff (u = v) (by simp)
  | .ok _, .error _ => isFalse (by simp)
  | .error _, .ok _ => isFalse (by simp)


/-- A tree node (`tree.Node` of the rendering core).  `tree.ts` is not
part of this repository snapshot, so the node shape follows spec §3:
`id` is the node's own path segment (`none` only for the synthetic
root), `size` and `value` are aggregate metrics, `hasValues` marks
value-aware subtrees, `children` is the ordered child list (absent
children are the empty list). -/
inductive Node where
  | mk (id : Option String) (size : ℚ) (value : Option ℚ) (hasValues : Bool)
      (children : List Node)

/-- The node's own path segment. -/
def Node.id : Node → Option String
  | .mk i _ _ _ _ => i

/-- The node's aggregate size. -/
def Node.size : Node → ℚ
  | .mk _ s _ _ _ => s

/-- The node's aggregate value, when any descendant carries one. -/
def Node.value : Node → Option ℚ
  | .mk _ _ v _ _ => v

/-- Whether the subtree participates in the value overlay. -/
def Node.hasValues : Node → Bool
  | .mk _ _ _ h _ => h

/-- The node's ordered children. -/
def Node.children : Node → List Node
  | .mk _ _ _ _ cs => cs

/-- Sum of the sizes of a list of nodes. -/
def sumSizes (cs : List Node) : ℚ :=
  cs.foldl (fun a c => a + c.size) 0

/-- Modelled from the spec (§4.5): the aggregate value of an internal
node from its already-aggregated children — `none` when no child has a
defined value, otherwise the size-weighted average over the children
that do, falling back to the arithmetic mean when every such child has
size 0. -/
def aggValue (cs : List Node) : Option ℚ :=
  let wv := cs.filterMap (fun c => c.value.map (fun q => (c.size, q)))
  match wv with
  | [] => none
  | _ =>
    let w := (wv.map Prod.fst).sum
    if w = 0 then some ((wv.map Prod.snd).sum / (wv.length : ℚ))
    else some ((wv.map (fun p => p.1 * p.2)).sum / w)

mutual
/-- Modelled from the spec (§4.5): `tree.rollup`, post-order — a leaf
keeps its assigned size/value and reports `hasValues` iff its value is
defined; an internal node takes the sum of its children's sizes, the
(size-weighted) aggregate of their values, and the OR of their
`hasValues` flags. -/
def rollupNode : Node → Node
  | .mk i s v _ [] => .mk i s v v.isSome []
  | .mk i _ _ _ (c :: cs) =>
    let cs' := rollupList (c :: cs)
    .mk i (sumSizes cs') (aggValue cs') (cs'.any (fun n => n.hasValues)) cs'

/-- `rollupNode` mapped over a child list. -/
def rollupList : List Node → List Node
  | [] => []
  | c :: cs => rollupNode c :: rollupList cs
end

/-- Child order for `tree.sort`, modelled from the spec (§4.6):
descending size, ties by ascending id. -/
def nodeBefore (a b : Node) : Bool :=
  b.size < a.size ∨ (a.size = b.size ∧ a.id.getD "" ≤ b.id.getD "")

/-- Insert a node into an already ordered list. -/
def insertNode (a : Node) : List Node → List Node
  | [] => [a]
  | b :: bs => if nodeBefore a b then a :: b :: bs else b :: insertNode a bs

/-- Insertion sort of a child list by `nodeBefore`. -/
def sortChildren (cs : List Node) : List Node :=
  cs.foldr insertNode []

mutual
/-- Modelled from the spec (§4.6): `tree.sort` recursively orders every
node's children by descending size with ties by ascending id. -/
def sortNode : Node → Node
  | .mk i s v h cs => .mk i s v h (sortChildren (sortList cs))

/-- `sortNode` mapped over a child list. -/
def sortList : List Node → List Node
  | [] => []
  | c :: cs => sortNode c :: sortList cs
end

/-- The compound segment of a flattened chain: `thisId + '/' + childId`. -/
def joinIds (a b : Option String) : Option String :=
  some (a.getD "" ++ "/" ++ b.getD "")

mutual
/-- Modelled from the spec (§4.6): `tree.flatten` on a non-root node —
after flattening its children, a node left with exactly one child is
collapsed into a single node carrying the joined id and the child's
size, value, `hasValues` and grandchildren. -/
def flattenNode : Node → Node
  | .mk i s v h cs =>
    match flattenList cs with
    | [c] => .mk (joinIds i c.id) c.size c.value c.hasValues c.children
    | cs' => .mk i s v h cs'

/-- `flattenNode` mapped over a child list. -/
def flattenList : List Node → List Node
  | [] => []
  | c :: cs => flattenNode c :: flattenList cs
end

/-- Modelled from the spec (§4.6): the root itself is never flattened
into a child; only its subtrees are. -/
def flattenRoot : Node → Node
  | .mk i s v h cs => .mk i s v h (flattenList cs)

/-- The common-empty-parent skip of `treeFromRows` (src/cli.ts
lines 57-60): when the built tree's root has `id === undefined` and
exactly one child, that child becomes the tree. -/
def skipEmptyParent (n : Node) : Node :=
  if n.id = none ∧ n.children.length = 1 then n.children.headD n else n

/-- The empty-parent size fix of `treeFromRows` (src/cli.ts
lines 62-67): a root of size 0 takes the sum of its children's sizes. -/
def fixRootSize (n : Node) : Node :=
  if n.size = 0 then .mk n.id (sumSizes n.children) n.value n.hasValues n.children else n

/-- Models `treeFromRows` (src/cli.ts lines 51-77) from the point where
`tree.treeify(rows)` has produced the raw tree `t` (the builder itself
lives in `tree.ts`, which is not in this snapshot, so the claim is
stated over an arbitrary builder output): skip a common empty parent,
roll the root size up from its children when it is 0, optionally run
the aggregation rollup, then sort and flatten. -/
def buildTree (t : Node) (doRollup : Bool) : Node :=
  let n := skipEmptyParent t
  let n := fixRootSize n
  let n := if doRollup then rollupNode n else n
  flattenRoot (sortNode n)

/-- Modelled from the spec (§4.3): the joining key of the coverage
reconciler is the literal joined path, source-root prefix plus the
report's relative file path (`path.join` is an external library; it is
modelled as joining with a single separator). -/
def pathJoin (pre rel : String) : String :=
  pre ++ "/" ++ rel

/-- Overwrite the value slot of the entry the `ptrs` map references for
path `p`: the map is keyed by path with later `set`s overwriting, so it
points at the last entry of the list whose path is `p` (no entry at all
when `p` is absent). -/
def setValueLast (p : String) (rate : JSNum) : List Row → List Row
  | [] => []
  | r :: rs =>
    if r.path = p ∧ ∀ x ∈ rs, x.path ≠ p then
      ⟨r.path, r.size, some (some rate)⟩ :: rs
    else r :: setValueLast p rate rs

/-- Models `processXml` (src/processors/coverage.ts lines 7-31).  The
XML file read and parse are external (`fs`, `fast-xml-parser`); the
parsed report is abstracted as the source-root `pre`
(`coverage.sources.source`) and `classes`, the `(filename, line-rate)`
pairs of every class in document order, with the line-rate already
holding `parseFloat`'s result.  Each class joins its path and
overwrites the matching size entry's value; classes with no matching
entry are skipped.  (The `console.log` of `/buildings/` paths is output
only and not modelled.) -/
def processXml (pre : String) (classes : List (String × JSNum)) (fileSizes : List Row) :
    List Row :=
  classes.foldl (fun fs c => setValueLast (pathJoin pre c.1) c.2 fs) fileSizes

/-- The line-rate of the last class of the report joining to path `p`,
if any. -/
def lastRate (pre : String) (classes : List (String × JSNum)) (p : String) : Option JSNum :=
  classes.foldl (fun acc c => if pathJoin pre c.1 = p then some c.2 else acc) none

/-- Pointwise description of `processXml`: an entry is rewritten only
when it is the last entry for its path and some class joins to that
path, in which case its value becomes the last such class's rate. -/
def pxPointwise (pre : String) (classes : List (String × JSNum)) : List Row → List Row
  | [] => []
  | r :: rs =>
    (if ∀ x ∈ rs, x.path ≠ r.path then
      match lastRate pre classes r.path with
      | some q => ⟨r.path, r.size, some (some q)⟩
      | none => r
    else r) :: pxPointwise pre classes rs

/-! Helper lemmas about the line parser. -/

theorem splitTokenRest_of_all_space (cs : List Char) (h : cs.all jsIsSpace = true) :
    splitTokenRest cs = none := by
  induction cs with
  | nil => rfl
  | cons c rest ih =>
    simp only [List.all_cons, Bool.and_eq_true] at h
    simp [splitTokenRest, h.1, ih h.2]

theorem not_blank_of_splitTokenRest (cs : List Char) (tok rest : List Char)
    (h : splitTokenRest cs = some (tok, rest)) : cs.all jsIsSpace = false := by
  cases hb : cs.all jsIsSpace with
  | false => rfl
  | true => rw [splitTokenRest_of_all_space cs hb] at h; exact absurd h (by simp)

theorem delimScan_of_all_space (cs : List Char) (h : cs.all jsIsSpace = true) :
    delimScan cs = false := by
  induction cs with
  | nil => rfl
  | cons c rest ih =>
    simp only [List.all_cons, Bool.and_eq_true] at h
    have hc : ('[' = c) = False := by
      simp only [eq_iff_iff, iff_false]
      intro he
      rw [← he] at h
      exact absurd h.1 (by decide)
    simp [delimScan, startsWithSeg, hc, ih h.2]

theorem isDelimLine_of_blank (line : String) (h : line.data.all jsIsSpace = true) :
    isDelimLine line = false :=
  delimScan_of_all_space line.data h

theorem parseLine_of_blank (line : String) (h : line.data.all jsIsSpace = true) :
    parseLine line = .ok ("", .fin 0) := by
  simp [parseLine, h]

/-! The claims about the record parser and the dual-pass overlay parser. -/

/-- C1: on the dual-pass input `10 /x`, `20 /y`, `[[ scores ]]`,
`0.3 /x`, `processSizeValuePathTuple` returns exactly the two records
`("/x", 10, 0.3)` and `("/y", 20, undefined)` in input order: the
overlay line's size position becomes the matching record's value, and
the unmatched record `/y` keeps no value. -/
theorem psp_dual_pass_overlay_example :
    processSizeValuePathTuple "10 /x\n20 /y\n[[ scores ]]\n0.3 /x" =
      .ok [⟨"/x", .fin 10, some (some (.fin (mkRat 3 10)))⟩, ⟨"/y", .fin 20, none⟩] := by
  decide

/-- C2: a line that splits as `(\S+)\s+(.*)` but whose first token is
not parseable as a number makes `parseLine` throw, with the offending
line text contained in the message, and no record is returned. -/
theorem parseLine_malformed_numeric_throws (line : String) (tok rest : List Char)
    (hs : splitTokenRest line.data = some (tok, rest)) (hn : jsNumber tok = .nan) :
    parseLine line =
      .error ("Unable to parse NaN as a number in line: \"" ++ line ++ "\"") ∧
    line.data <:+: ("Unable to parse NaN as a number in line: \"" ++ line ++ "\"").data := by
  have hb : line.data.all jsIsSpace = false := not_blank_of_splitTokenRest _ _ _ hs
  refine ⟨by simp [parseLine, hb, hs, hn], ?_⟩
  refine ⟨"Unable to parse NaN as a number in line: \"".data, "\"".data, ?_⟩
  obtain ⟨cs⟩ := line
  rfl

theorem parseLine_malformed_numeric_throws_witness :
    parseLine "abc /x" =
      .error ("Unable to parse NaN as a number in line: \"" ++ "abc /x" ++ "\"") ∧
    "abc /x".data <:+: ("Unable to parse NaN as a number in line: \"" ++ "abc /x" ++ "\"").data :=
  parseLine_malformed_numeric_throws "abc /x" "abc".data "/x".data (by decide) (by decide)

/-- C3: after the delimiter, a data line whose path is not in the index
appends the new record `(path, 0, overlay number)` at the end of the
result list; the path is not dropped. -/
theorem psp_overlay_unmatched_appends (st : PState) (line p : String) (s : JSNum)
    (hf : st.found = true) (hd : isDelimLine line = false)
    (hp : parseLine line = .ok (p, s)) (hm : assocGet st.ptrs p = none) :
    pspStep st line = .ok ⟨st.results ++ [⟨p, .fin 0, some (some s)⟩], st.ptrs, true⟩ := by
  simp [pspStep, hd, hp, hf, hm]

theorem psp_overlay_unmatched_appends_witness :
    pspStep ⟨[], [], true⟩ "0.5 /z" =
      .ok ⟨[⟨"/z", .fin 0, some (some (.fin (mkRat 5 10)))⟩], [], true⟩ :=
  psp_overlay_unmatched_appends ⟨[], [], true⟩ "0.5 /z" "/z" (.fin (mkRat 5 10))
    rfl (by decide) (by decide) rfl

/-- C4 counterexample: with `/x` on two primary lines and one overlay
line, the result keeps BOTH primary occurrences of `/x` (the path does
not occupy only its first position) and the overlay value 0.5 lands on
the second occurrence, while the first receives only the explicit
`undefined` sentinel — contradicting first-occurrence-wins. -/
theorem psp_duplicate_path_cx :
    processSizeValuePathTuple "1 /x\n2 /x\n[[ v ]]\n0.5 /x" =
      .ok [⟨"/x", .fin 1, some none⟩, ⟨"/x", .fin 2, some (some (.fin (mkRat 1 2)))⟩] := by
  decide

/-- C4 (amended): every primary-pass data line appends its own record,
so a repeated path occupies one list position per occurrence, and the
index entry prepended for it refers to the newest record; consequently
an overlay value for a repeated path is attached, through the index, to
the LAST primary occurrence, not the first. -/
theorem psp_duplicate_path_last_wins :
    (∀ (st : PState) (line p : String) (s : JSNum), st.found = false →
      isDelimLine line = false → parseLine line = .ok (p, s) →
      pspStep st line =
        .ok ⟨st.results ++ [⟨p, s, none⟩], (p, st.results.length) :: st.ptrs, false⟩) ∧
    (∀ (l : List (String × ℕ)) (p : String) (j : ℕ), assocGet ((p, j) :: l) p = some j) ∧
    (∀ (st : PState) (line p : String) (s : JSNum) (i : ℕ), st.found = true →
      isDelimLine line = false → parseLine line = .ok (p, s) → assocGet st.ptrs p = some i →
      pspStep st line =
        .ok ⟨listModify st.results i (fun r => ⟨r.path, r.size, some (some s)⟩), st.ptrs, true⟩) := by
  refine ⟨?_, ?_, ?_⟩
  · intro st line p s hf hd hp
    simp [pspStep, hd, hp, hf]
  · intro l p j
    simp [assocGet]
  · intro st line p s i hf hd hp hm
    simp [pspStep, hd, hp, hf, hm]

theorem psp_duplicate_path_last_wins_witness :
    pspStep ⟨[⟨"/x", .fin 1, none⟩], [("/x", 0)], false⟩ "2 /x" =
      .ok ⟨[⟨"/x", .fin 1, none⟩, ⟨"/x", .fin 2, none⟩], [("/x", 1), ("/x", 0)], false⟩ ∧
    assocGet [("/x", 1), ("/x", 0)] "/x" = some 1 ∧
    pspStep ⟨[⟨"/x", .fin 1, none⟩, ⟨"/x", .fin 2, none⟩], [("/x", 1), ("/x", 0)], true⟩
        "0.5 /x" =
      .ok ⟨[⟨"/x", .fin 1, none⟩, ⟨"/x", .fin 2, some (some (.fin (mkRat 1 2)))⟩],
        [("/x", 1), ("/x", 0)], true⟩ :=
  ⟨psp_duplicate_path_last_wins.1 _ "2 /x" "/x" (.fin (mkRat 2 1)) rfl (by decide) (by decide),
   psp_duplicate_path_last_wins.2.1 [("/x", 0)] "/x" 1,
   psp_duplicate_path_last_wins.2.2 _ "0.5 /x" "/x" (.fin (mkRat 1 2)) 1 rfl (by decide)
     (by decide) (by decide)⟩

/-- C5 counterexample: the accepted line `-5 /x` produces the record
`("/x", -5)` whose size is negative, so `parseLine` does not guarantee
non-negative sizes. -/
theorem parseLine_negative_size_cx :
    parseLine "-5 /x" = .ok ("/x", .fin (mkRat (-5) 1)) ∧
    (JSNum.fin (mkRat (-5) 1)).ge0 = false := by
  decide

/-- C5 (amended): every record produced by an accepted input line has
size >= 0 PROVIDED the line's numeric token, when the line splits as
`(\S+)\s+(.*)`, denotes a non-negative number; blank lines yield size 0
and bare-path lines size 1.  (A negative numeric token such as `-5`
yields a negative size.) -/
theorem parseLine_size_nonneg (line p : String) (s : JSNum)
    (hok : parseLine line = .ok (p, s))
    (htok : ∀ tok rest, splitTokenRest line.data = some (tok, rest) →
      (jsNumber tok).ge0 = true) :
    s.ge0 = true := by
  by_cases hb : line.data.all jsIsSpace = true
  · simp [parseLine, hb] at hok
    rw [← hok.2]
    decide
  · simp only [Bool.not_eq_true] at hb
    cases hsp : splitTokenRest line.data with
    | none =>
      simp [parseLine, hb, hsp] at hok
      rw [← hok.2]
      decide
    | some pr =>
      obtain ⟨tok, rest⟩ := pr
      have hge := htok tok rest hsp
      cases hn : jsNumber tok with
      | nan => rw [hn] at hge; exact absurd hge (by decide)
      | posInf => simp [parseLine, hb, hsp, hn] at hok; rw [← hok.2, ← hn]; exact hge
      | negInf => simp [parseLine, hb, hsp, hn] at hok; rw [← hok.2, ← hn]; exact hge
      | fin q => simp [parseLine, hb, hsp, hn] at hok; rw [← hok.2, ← hn]; exact hge

theorem parseLine_size_nonneg_witness :
    parseLine "7 /x" = .ok ("/x", .fin (mkRat 7 1)) ∧
    (JSNum.fin (mkRat 7 1)).ge0 = true :=
  ⟨by decide,
   parseLine_size_nonneg "7 /x" "/x" (.fin (mkRat 7 1)) (by decide)
     (by
       intro tok rest h
       have h2 : splitTokenRest "7 /x".data = some ("7".data, "/x".data) := by decide
       rw [h2] at h
       cases h
       decide)⟩

/-- C6: a delimiter line only sets the flag; after the scan, when the
flag is set and the first record's value slot was never assigned, that
slot is set to an explicit `undefined` sentinel; when the first record
already carries an assigned value slot — or no delimiter was seen — no
record is modified by the fixup. -/
theorem psp_first_record_sentinel :
    (∀ (st : PState) (line : String), isDelimLine line = true →
      pspStep st line = .ok ⟨st.results, st.ptrs, true⟩) ∧
    (∀ (r : Row) (rs : List Row), r.value = none →
      pspFinalize true (r :: rs) = ⟨r.path, r.size, some none⟩ :: rs) ∧
    (∀ (found : Bool) (r : Row) (rs : List Row) (v : Option JSNum), r.value = some v →
      pspFinalize found (r :: rs) = r :: rs) ∧
    (∀ (r : Row) (rs : List Row), pspFinalize false (r :: rs) = r :: rs) := by
  refine ⟨?_, ?_, ?_, ?_⟩
  · intro st line h
    simp [pspStep, h]
  · intro r rs h
    simp [pspFinalize, h]
  · intro found r rs v h
    simp [pspFinalize, h]
  · intro r rs
    simp [pspFinalize]

theorem psp_first_record_sentinel_witness :
    pspStep ⟨[], [], false⟩ "[[ scores ]]" = .ok ⟨[], [], true⟩ ∧
    pspFinalize true [⟨"/a", .fin 1, none⟩] = [⟨"/a", .fin 1, some none⟩] ∧
    pspFinalize true [⟨"/a", .fin 1, some (some (.fin (mkRat 3 10)))⟩] =
      [⟨"/a", .fin 1, some (some (.fin (mkRat 3 10)))⟩] ∧
    pspFinalize false [⟨"/a", .fin 1, none⟩] = [⟨"/a", .fin 1, none⟩] :=
  ⟨psp_first_record_sentinel.1 ⟨[], [], false⟩ "[[ scores ]]" (by decide),
   psp_first_record_sentinel.2.1 ⟨"/a", .fin 1, none⟩ [] rfl,
   psp_first_record_sentinel.2.2.1 true ⟨"/a", .fin 1, some (some (.fin (mkRat 3 10)))⟩ []
     (some (.fin (mkRat 3 10))) rfl,
   psp_first_record_sentinel.2.2.2 ⟨"/a", .fin 1, none⟩ []⟩

/-- C10: a blank or whitespace-only line before the delimiter appends
the record `("", 0)` to the results and indexes it under the empty
path; consequently a blank line after the delimiter overwrites the
value slot of the record the empty-path index entry references with 0. -/
theorem psp_blank_line_indexed :
    (∀ (st : PState) (line : String), line.data.all jsIsSpace = true → st.found = false →
      pspStep st line =
        .ok ⟨st.results ++ [⟨"", .fin 0, none⟩], ("", st.results.length) :: st.ptrs, false⟩) ∧
    (∀ (st : PState) (line : String) (i : ℕ), line.data.all jsIsSpace = true →
      st.found = true → assocGet st.ptrs "" = some i →
      pspStep st line =
        .ok ⟨listModify st.results i (fun r => ⟨r.path, r.size, some (some (.fin 0))⟩),
          st.ptrs, true⟩) := by
  constructor
  · intro st line hbl hf
    have hd := isDelimLine_of_blank line hbl
    have hp := parseLine_of_blank line hbl
    simp [pspStep, hd, hp, hf]
  · intro st line i hbl hf hm
    have hd := isDelimLine_of_blank line hbl
    have hp := parseLine_of_blank line hbl
    simp [pspStep, hd, hp, hf, hm]

theorem psp_blank_line_indexed_witness :
    pspStep ⟨[], [], false⟩ "" = .ok ⟨[⟨"", .fin 0, none⟩], [("", 0)], false⟩ ∧
    pspStep ⟨[⟨"", .fin 0, none⟩], [("", 0)], true⟩ " " =
      .ok ⟨[⟨"", .fin 0, some (some (.fin 0))⟩], [("", 0)], true⟩ :=
  ⟨psp_blank_line_indexed.1 ⟨[], [], false⟩ "" (by decide) rfl,
   psp_blank_line_indexed.2 ⟨[⟨"", .fin 0, none⟩], [("", 0)], true⟩ " " 0 (by decide) rfl rfl⟩

/-! Helper lemmas for the tree pipeline: every stage after the
common-empty-parent skip leaves the root's id unchanged. -/

theorem rollupNode_id (n : Node) : (rollupNode n).id = n.id := by
  obtain ⟨i, s, v, h, cs⟩ := n
  cases cs <;> simp [rollupNode, Node.id]

theorem sortNode_id (n : Node) : (sortNode n).id = n.id := by
  obtain ⟨i, s, v, h, cs⟩ := n
  simp [sortNode, Node.id]

theorem flattenRoot_id (n : Node) : (flattenRoot n).id = n.id := by
  obtain ⟨i, s, v, h, cs⟩ := n
  simp [flattenRoot, Node.id]

theorem fixRootSize_id (n : Node) : (fixRootSize n).id = n.id := by
  unfold fixRootSize
  split <;> simp [Node.id]

/-- C7: in `treeFromRows`, a builder output whose root has an undefined
id and exactly one child has that child promoted to be the tree passed
through the remaining stages; any root with a defined id or a child
count other than one is left in place; and no later stage (size fix,
rollup, sort, flatten) ever replaces the root, so the returned tree's
root is exactly the promoted node. -/
theorem buildTree_root_promotion :
    (∀ (s : ℚ) (v : Option ℚ) (h : Bool) (c : Node),
      skipEmptyParent (.mk none s v h [c]) = c) ∧
    (∀ t : Node, t.id ≠ none ∨ t.children.length ≠ 1 → skipEmptyParent t = t) ∧
    (∀ (t : Node) (b : Bool), (buildTree t b).id = (skipEmptyParent t).id) := by
  refine ⟨?_, ?_, ?_⟩
  · intro s v h c
    simp [skipEmptyParent, Node.id, Node.children]
  · intro t ht
    unfold skipEmptyParent
    rw [if_neg]
    tauto
  · intro t b
    simp only [buildTree]
    cases b <;>
      simp [flattenRoot_id, sortNode_id, rollupNode_id, fixRootSize_id]

theorem buildTree_root_promotion_witness :
    skipEmptyParent (.mk none 0 none false [.mk (some "a") 5 none false []]) =
      .mk (some "a") 5 none false [] ∧
    skipEmptyParent (.mk (some "r") 3 none false [.mk (some "a") 5 none false []]) =
      .mk (some "r") 3 none false [.mk (some "a") 5 none false []] ∧
    (buildTree (.mk none 0 none false [.mk (some "a") 5 none false []]) true).id =
      (skipEmptyParent (.mk none 0 none false [.mk (some "a") 5 none false []])).id :=
  ⟨buildTree_root_promotion.1 0 none false (.mk (some "a") 5 none false []),
   buildTree_root_promotion.2.1 (.mk (some "r") 3 none false [.mk (some "a") 5 none false []])
     (Or.inl (by simp [Node.id])),
   buildTree_root_promotion.2.2 (.mk none 0 none false [.mk (some "a") 5 none false []]) true⟩

/-! Helper lemmas for the coverage reconciler. -/

theorem setValueLast_path_map (p : String) (q : JSNum) (fs : List Row) :
    (setValueLast p q fs).map Row.path = fs.map Row.path := by
  induction fs with
  | nil => rfl
  | cons r rs ih =>
    by_cases hc : r.path = p ∧ ∀ x ∈ rs, x.path ≠ p
    · simp only [setValueLast, if_pos hc, List.map_cons]
    · simp only [setValueLast, if_neg hc, List.map_cons, ih]

theorem setValueLast_pathSize (p : String) (q : JSNum) (fs : List Row) :
    (setValueLast p q fs).map (fun r => (r.path, r.size)) =
      fs.map (fun r => (r.path, r.size)) := by
  induction fs with
  | nil => rfl
  | cons r rs ih =>
    by_cases hc : r.path = p ∧ ∀ x ∈ rs, x.path ≠ p
    · simp only [setValueLast, if_pos hc, List.map_cons]
    · simp only [setValueLast, if_neg hc, List.map_cons, ih]

theorem forall_path_of_map_eq (l l' : List Row) (h : l.map Row.path = l'.map Row.path)
    (P : String → Prop) : (∀ x ∈ l, P x.path) ↔ (∀ x ∈ l', P x.path) := by
  constructor <;> intro ha x hx
  · have : x.path ∈ l'.map Row.path := List.mem_map_of_mem _ hx
    rw [← h] at this
    obtain ⟨y, hy, hyx⟩ := List.mem_map.mp this
    exact hyx ▸ ha y hy
  · have : x.path ∈ l.map Row.path := List.mem_map_of_mem _ hx
    rw [h] at this
    obtain ⟨y, hy, hyx⟩ := List.mem_map.mp this
    exact hyx ▸ ha y hy

theorem setValueLast_not_present (p : String) (q : JSNum) (fs : List Row)
    (h : ∀ x ∈ fs, x.path ≠ p) : setValueLast p q fs = fs := by
  induction fs with
  | nil => rfl
  | cons r rs ih =>
    have hc : ¬(r.path = p ∧ ∀ x ∈ rs, x.path ≠ p) := fun hx =>
      h r (List.mem_cons_self r rs) hx.1
    simp only [setValueLast, if_neg hc]
    rw [ih (fun x hx => h x (List.mem_cons_of_mem r hx))]

theorem setValueLast_get_ne (p : String) (q : JSNum) (fs : List Row) (i : ℕ) (r : Row)
    (hget : fs.get? i = some r) (hne : r.path ≠ p) :
    (setValueLast p q fs).get? i = some r := by
  induction fs generalizing i with
  | nil => simp at hget
  | cons r' rs ih =>
    by_cases hc : r'.path = p ∧ ∀ x ∈ rs, x.path ≠ p
    · cases i with
      | zero =>
        simp only [List.get?] at hget
        cases hget
        exact absurd hc.1 hne
      | succ i =>
        simp only [List.get?] at hget
        simp only [setValueLast, if_pos hc, List.get?]
        exact hget
    · cases i with
      | zero =>
        simp only [List.get?] at hget
        simp only [setValueLast, if_neg hc, List.get?]
        exact hget
      | succ i =>
        simp only [List.get?] at hget
        simp only [setValueLast, if_neg hc, List.get?]
        exact ih i hget

theorem lastRate_foldl (pre p : String) (cls : List (String × JSNum)) (init : Option JSNum) :
    cls.foldl (fun acc c => if pathJoin pre c.1 = p then some c.2 else acc) init =
      match lastRate pre cls p with
      | some q => some q
      | none => init := by
  induction cls generalizing init with
  | nil => simp [lastRate]
  | cons c cls ih =>
    show cls.foldl _ (if pathJoin pre c.1 = p then some c.2 else init) = _
    rw [ih]
    have hl : lastRate pre (c :: cls) p =
        match lastRate pre cls p with
        | some q => some q
        | none => if pathJoin pre c.1 = p then some c.2 else none := by
      show cls.foldl _ (if pathJoin pre c.1 = p then some c.2 else none) = _
      rw [ih]
    rw [hl]
    cases lastRate pre cls p with
    | some q => rfl
    | none => by_cases hj : pathJoin pre c.1 = p <;> simp [hj]

theorem lastRate_cons_ne (pre y : String) (c : String × JSNum) (cls : List (String × JSNum))
    (h : pathJoin pre c.1 ≠ y) : lastRate pre (c :: cls) y = lastRate pre cls y := by
  show cls.foldl _ (if pathJoin pre c.1 = y then some c.2 else none) = _
  rw [if_neg h]
  rfl

theorem pxPointwise_nil (pre : String) (fs : List Row) : pxPointwise pre [] fs = fs := by
  induction fs with
  | nil => rfl
  | cons r rs ih =>
    simp only [pxPointwise, ih]
    split <;> rfl

theorem pxPointwise_cons_not_present (pre : String) (c : String × JSNum)
    (cls : List (String × JSNum)) (fs : List Row)
    (h : ∀ x ∈ fs, x.path ≠ pathJoin pre c.1) :
    pxPointwise pre (c :: cls) fs = pxPointwise pre cls fs := by
  induction fs with
  | nil => rfl
  | cons r rs ih =>
    have hr : r.path ≠ pathJoin pre c.1 := h r (List.mem_cons_self r rs)
    have hlr := lastRate_cons_ne pre r.path c cls (fun hx => hr hx.symm)
    simp only [pxPointwise, hlr, ih (fun x hx => h x (List.mem_cons_of_mem r hx))]

theorem pxPointwise_setValueLast (pre : String) (c : String × JSNum)
    (cls : List (String × JSNum)) (fs : List Row) :
    pxPointwise pre cls (setValueLast (pathJoin pre c.1) c.2 fs) =
      pxPointwise pre (c :: cls) fs := by
  induction fs with
  | nil => rfl
  | cons r rs ih =>
    by_cases hc : r.path = pathJoin pre c.1 ∧ ∀ x ∈ rs, x.path ≠ pathJoin pre c.1
    · obtain ⟨h1, h2⟩ := hc
      have hall : ∀ x ∈ rs, x.path ≠ r.path := by rw [h1]; exact h2
      have hsv : setValueLast (pathJoin pre c.1) c.2 (r :: rs) =
          ⟨r.path, r.size, some (some c.2)⟩ :: rs := by
        simp only [setValueLast, if_pos (And.intro h1 h2)]
      rw [hsv]
      have hlast : lastRate pre (c :: cls) r.path =
          match lastRate pre cls r.path with
          | some q => some q
          | none => some c.2 := by
        show cls.foldl _ (if pathJoin pre c.1 = r.path then some c.2 else none) = _
        rw [if_pos h1.symm, lastRate_foldl]
      simp only [pxPointwise]
      rw [pxPointwise_cons_not_present pre c cls rs h2]
      rw [if_pos hall, if_pos hall, hlast]
      cases lastRate pre cls r.path <;> rfl
    · have hmap := setValueLast_path_map (pathJoin pre c.1) c.2 rs
      have hiff := forall_path_of_map_eq _ _ hmap (fun y => y ≠ r.path)
      simp only [setValueLast, if_neg hc, pxPointwise]
      rw [ih]
      by_cases hcond : ∀ x ∈ rs, x.path ≠ r.path
      · rw [if_pos (hiff.mpr hcond), if_pos hcond]
        have hne : r.path ≠ pathJoin pre c.1 := by
          intro he
          exact hc ⟨he, fun x hx => by rw [← he]; exact hcond x hx⟩
        rw [lastRate_cons_ne pre r.path c cls (fun hx => hne hx.symm)]
      · rw [if_neg (fun hx => hcond (hiff.mp hx)), if_neg hcond]

theorem processXml_eq_pointwise (pre : String) (cls : List (String × JSNum)) (fs : List Row) :
    processXml pre cls fs = pxPointwise pre cls fs := by
  induction cls generalizing fs with
  | nil => exact (pxPointwise_nil pre fs).symm
  | cons c cls ih =>
    have h0 : processXml pre (c :: cls) fs =
        processXml pre cls (setValueLast (pathJoin pre c.1) c.2 fs) := rfl
    rw [h0, ih, pxPointwise_setValueLast]

theorem pxPointwise_path_map (pre : String) (cls : List (String × JSNum)) (fs : List Row) :
    (pxPointwise pre cls fs).map Row.path = fs.map Row.path := by
  induction fs with
  | nil => rfl
  | cons r rs ih =>
    simp only [pxPointwise, List.map_cons, ih]
    congr 1
    by_cases hcond : ∀ x ∈ rs, x.path ≠ r.path
    · rw [if_pos hcond]
      cases lastRate pre cls r.path <;> rfl
    · rw [if_neg hcond]

theorem pxPointwise_idem (pre : String) (cls : List (String × JSNum)) (fs : List Row) :
    pxPointwise pre cls (pxPointwise pre cls fs) = pxPointwise pre cls fs := by
  induction fs with
  | nil => rfl
  | cons r rs ih =>
    have hiff := forall_path_of_map_eq _ _ (pxPointwise_path_map pre cls rs)
      (fun y => y ≠ r.path)
    by_cases hcond : ∀ x ∈ rs, x.path ≠ r.path
    · cases hl : lastRate pre cls r.path with
      | none =>
        have e1 : pxPointwise pre cls (r :: rs) = r :: pxPointwise pre cls rs := by
          simp only [pxPointwise, if_pos hcond, hl]
        have e2 : pxPointwise pre cls (r :: pxPointwise pre cls rs) =
            r :: pxPointwise pre cls (pxPointwise pre cls rs) := by
          simp only [pxPointwise, if_pos (hiff.mpr hcond), hl]
        rw [e1, e2, ih]
      | some q =>
        have e1 : pxPointwise pre cls (r :: rs) =
            ⟨r.path, r.size, some (some q)⟩ :: pxPointwise pre cls rs := by
          simp only [pxPointwise, if_pos hcond, hl]
        have e2 : pxPointwise pre cls
              (Row.mk r.path r.size (some (some q)) :: pxPointwise pre cls rs) =
            ⟨r.path, r.size, some (some q)⟩ :: pxPointwise pre cls (pxPointwise pre cls rs) := by
          simp only [pxPointwise, if_pos (hiff.mpr hcond), hl]
        rw [e1, e2, ih]
    · have e1 : pxPointwise pre cls (r :: rs) = r :: pxPointwise pre cls rs := by
        simp only [pxPointwise, if_neg hcond]
      have e2 : pxPointwise pre cls (r :: pxPointwise pre cls rs) =
          r :: pxPointwise pre cls (pxPointwise pre cls rs) := by
        simp only [pxPointwise, if_neg (fun hx => hcond (hiff.mp hx))]
      rw [e1, e2, ih]

/-- C8: `processXml` is idempotent — running the reconciliation a
second time with the same report (prefix and classes) over the result
of the first run reproduces it exactly: the attached values are pure
assignments of the parsed line-rates, with no accumulation. -/
theorem processXml_idempotent (pre : String) (classes : List (String × JSNum))
    (fileSizes : List Row) :
    processXml pre classes (processXml pre classes fileSizes) =
      processXml pre classes fileSizes := by
  simp only [processXml_eq_pointwise]
  exact pxPointwise_idem pre classes fileSizes

/-- C9: a report class whose joined path matches no size entry is
skipped without error and adds no entry; every entry's path and size
survive unchanged; and an entry whose path is joined by no class keeps
its whole row — in particular an unset (`undefined`) value slot stays
unset. -/
theorem processXml_skip_and_preserve :
    (∀ (pre : String) (c : String × JSNum) (cls : List (String × JSNum)) (fs : List Row),
      (∀ r ∈ fs, r.path ≠ pathJoin pre c.1) →
      processXml pre (c :: cls) fs = processXml pre cls fs) ∧
    (∀ (pre : String) (cls : List (String × JSNum)) (fs : List Row),
      (processXml pre cls fs).map (fun r => (r.path, r.size)) =
        fs.map (fun r => (r.path, r.size))) ∧
    (∀ (pre : String) (cls : List (String × JSNum)) (fs : List Row) (i : ℕ) (r : Row),
      fs.get? i = some r → (∀ x ∈ cls, pathJoin pre x.1 ≠ r.path) →
      (processXml pre cls fs).get? i = some r) := by
  refine ⟨?_, ?_, ?_⟩
  · intro pre c cls fs h
    have h0 : processXml pre (c :: cls) fs =
        processXml pre cls (setValueLast (pathJoin pre c.1) c.2 fs) := rfl
    rw [h0, setValueLast_not_present _ _ _ h]
  · intro pre cls
    induction cls with
    | nil => intro fs; rfl
    | cons c cls ih =>
      intro fs
      have h0 : processXml pre (c :: cls) fs =
          processXml pre cls (setValueLast (pathJoin pre c.1) c.2 fs) := rfl
      rw [h0, ih, setValueLast_pathSize]
  · intro pre cls
    induction cls with
    | nil => intro fs i r hget _; exact hget
    | cons c cls ih =>
      intro fs i r hget hcls
      have h0 : processXml pre (c :: cls) fs =
          processXml pre cls (setValueLast (pathJoin pre c.1) c.2 fs) := rfl
      rw [h0]
      refine ih _ i r ?_ (fun x hx => hcls x (List.mem_cons_of_mem c hx))
      exact setValueLast_get_ne _ _ _ _ _ hget
        (fun hx => hcls c (List.mem_cons_self c cls) hx.symm)

theorem processXml_skip_and_preserve_witness :
    processXml "/src" [("a.ts", .fin (mkRat 1 2))] [⟨"/src/b.ts", .fin 10, none⟩] =
      processXml "/src" [] [⟨"/src/b.ts", .fin 10, none⟩] ∧
    (processXml "/src" [("b.ts", .fin (mkRat 1 2))]
        [⟨"/src/b.ts", .fin 10, none⟩]).map (fun r => (r.path, r.size)) =
      ([⟨"/src/b.ts", .fin 10, none⟩] : List Row).map (fun r => (r.path, r.size)) ∧
    (processXml "/src" [("a.ts", .fin (mkRat 1 2))]
        [⟨"/src/b.ts", .fin 10, none⟩]).get? 0 = some ⟨"/src/b.ts", .fin 10, none⟩ :=
  ⟨processXml_skip_and_preserve.1 "/src" ("a.ts", .fin (mkRat 1 2)) []
      [⟨"/src/b.ts", .fin 10, none⟩] (by decide),
   processXml_skip_and_preserve.2.1 "/src" [("b.ts", .fin (mkRat 1 2))]
      [⟨"/src/b.ts", .fin 10, none⟩],
   processXml_skip_and_preserve.2.2 "/src" [("a.ts", .fin (mkRat 1 2))]
      [⟨"/src/b.ts", .fin 10, none⟩] 0 ⟨"/src/b.ts", .fin 10, none⟩ rfl (by decide)⟩
